import Mathlib

/-!
Verification of the IRC message framer and codec (`irc/msg.go`).

Strings are modelled as `List Char` (one `Char` per byte of the Go string;
all protocol-significant bytes are ASCII).  The `bufio.Reader` byte source is
modelled as the remaining `List Char` of the stream: `ReadByte` succeeding is
the stream being non-empty, `io.EOF` is the empty stream.  Each framer
operation returns its result together with the stream that remains, so that
successive reads on the same stream can be chained.
-/

set_option maxRecDepth 10000

namespace Irc

/-- MaxBytes is the maximum size of a message in bytes (`const MaxBytes = 512`). -/
def MaxBytes : Nat := 512

/-- delimiter is the marker delineating messages in the TCP stream
(`const delimiter = "\r\n"`). -/
def delimiter : List Char := ['\r', '\n']

/-- The NUL byte (`'\000'` in the Go source). -/
def nulChar : Char := '\x00'

/-- Decidable equality for `Except`, needed to evaluate framer results on
concrete streams. -/
instance {ε α : Type} [DecidableEq ε] [DecidableEq α] : DecidableEq (Except ε α) := fun x y =>
  match x, y with
  | .ok a, .ok b => if h : a = b then isTrue (by rw [h]) else isFalse (by simp [h])
  | .error a, .error b => if h : a = b then isTrue (by rw [h]) else isFalse (by simp [h])
  | .ok _, .error _ => isFalse (by simp)
  | .error _, .ok _ => isFalse (by simp)

/-- MsgTooLong is returned as an error when a message is received that is
longer than the maximum message size (struct `MsgTooLong`). -/
structure MsgTooLong where
  /-- Message is the truncated message text. -/
  message : List Char
  /-- NTrunc is the number of truncated bytes. -/
  nTrunc : Nat
deriving DecidableEq, Repr

/-- The errors the read path can produce.  `eof` is Go's `io.EOF` (returned
unchanged by `readMsgData` when the source is exhausted with no pending
message); `unexpected what` is `unexpected(what)`, i.e.
`errors.New("unexpected " + what + " in message stream")`; `tooLong` wraps
the `MsgTooLong` value. -/
inductive ReadError where
  | eof : ReadError
  | unexpected (what : String) : ReadError
  | tooLong (e : MsgTooLong) : ReadError
deriving DecidableEq, Repr

/-- A Message is the basic unit of communication in the IRC protocol
(struct `Message`).  Go strings become `List Char`; the zero value of each
field is the empty list. -/
structure Message where
  /-- Raw is the raw message string. -/
  Raw : List Char := []
  /-- Origin is either the nick or server that originated the message. -/
  Origin : List Char := []
  /-- User is the name of the user that originated the message. -/
  User : List Char := []
  /-- Host is the name of the host that originated the message. -/
  Host : List Char := []
  /-- Command is the message's command (a `Command` is just a string). -/
  Command : List Char := []
  /-- Arguments is the message's argument list. -/
  Arguments : List (List Char) := []
deriving DecidableEq, Repr

/-- splitString returns two strings, the first the portion before the first
occurrence of the delimiter, the second the portion after it; if the
delimiter does not occur, the whole string is the head and the tail is
empty (Go: `strings.SplitN(s, delim, 2)` followed by `strings.Join`).
If the delimiter is a space then the tail additionally has all leading
space characters stripped (`strings.TrimLeft(cons, delim)`).  The Go
function takes the delimiter as a string; every call site passes a single
character, which is how it is modelled here. -/
def splitString (s : List Char) (delim : Char) : List Char × List Char :=
  let head := s.takeWhile (fun c => c ≠ delim)
  let tl := (s.dropWhile (fun c => c ≠ delim)).drop 1
  if delim = ' ' then (head, tl.dropWhile (fun c => c = ' ')) else (head, tl)

/-- The argument-extraction loop of `Parse` (`for len(data) > 0 { ... }`),
written with explicit fuel so that it is structurally recursive and hence
computable by the kernel.  Each iteration consumes at least one character,
so fuel equal to the initial length always suffices (`parseArgsF_fuel`
below proves fuel-irrelevance). -/
def parseArgsF : Nat → List Char → List (List Char)
  | 0, _ => []
  | _, [] => []
  | fuel + 1, c :: rest =>
    if c = ':' then [rest]
    else
      let p := splitString (c :: rest) ' '
      p.1 :: parseArgsF fuel p.2

/-- The argument-extraction loop of `Parse` at its natural fuel. -/
def parseArgs (data : List Char) : List (List Char) :=
  parseArgsF data.length data

/-- Parse parses a message from a raw message string (func `Parse`).
Go indexes `data[0]` unconditionally, which panics on the empty string;
that panic is modelled as `none`.  On non-empty input the Go function
always returns a `nil` error, modelled as `some`. -/
def Parse : List Char → Option Message
  | [] => none
  | c :: rest =>
    let data := c :: rest
    let (msg1, data1) :=
      if c = ':' then
        let p := splitString rest ' '
        let q := splitString p.1 '!'
        let r := splitString q.2 '@'
        (({ Raw := data, Origin := q.1, User := r.1, Host := r.2 } : Message), p.2)
      else (({ Raw := data } : Message), data)
    let cd := splitString data1 ' '
    some { msg1 with Command := cd.1, Arguments := parseArgs cd.2 }

/-- The argument portion of the reconstructed wire text: the loop
`for i, a := range m.Arguments { ... }` of `RawString`, appending
`" :" + a` for the final argument and `" " + a` for every other one. -/
def argsString : List (List Char) → List Char
  | [] => []
  | [a] => ' ' :: ':' :: a
  | a :: rest => (' ' :: a) ++ argsString rest

/-- `strings.TrimRight(raw, "\n")`: strip every trailing newline
character. -/
def trimRightNl (s : List Char) : List Char :=
  (s.reverse.dropWhile (fun c => c = '\n')).reverse

/-- The candidate wire text assembled by `RawString` before the length
guard: the stored `Raw` verbatim if non-empty (the `goto out` path),
otherwise the text rebuilt from origin/user/host/command/arguments. -/
def rawCandidate (m : Message) : List Char :=
  if m.Raw ≠ [] then m.Raw
  else
    (if m.Origin ≠ [] then
      ':' :: m.Origin ++
        (if m.User ≠ [] then '!' :: m.User ++ '@' :: m.Host else []) ++ [' ']
     else [])
    ++ m.Command ++ argsString m.Arguments

/-- RawString returns the raw string representation of a message
(func `(m Message) RawString`).  The length guard compares the candidate
(before any trimming) against `MaxBytes - len(delimiter)`; on success the
candidate is returned with trailing newline characters stripped. -/
def Message.RawString (m : Message) : Except MsgTooLong (List Char) :=
  let raw := rawCandidate m
  if raw.length > MaxBytes - delimiter.length then
    .error ⟨raw, raw.length - (MaxBytes - delimiter.length)⟩
  else
    .ok (trimRightNl raw)

/-- The loop of `junk`: reads and discards bytes until the two-byte
delimiter is found, tracking the previous byte (`last`, initially the zero
byte) and the count `n` of bytes read so far.  On finding the delimiter Go
increments `n` and returns `n - 1`; on a read error it returns the current
`n`.  The remaining stream is returned alongside the count. -/
def junkAux : List Char → Char → Nat → Nat × List Char
  | [], _, n => (n, [])
  | c :: rest, last, n =>
    if last = delimiter[0]! ∧ c = delimiter[1]! then (n, rest)
    else junkAux rest c (n + 1)

/-- Junk reads and discards bytes until the next message marker is found,
returning the number of discarded bytes as computed by the Go code
(func `junk`). -/
def junk (s : List Char) : Nat × List Char :=
  junkAux s nulChar 0

/-- ReadMsgData returns the raw data for the next message from the stream
(func `readMsgData`), together with the remaining stream.  The first
argument is the accumulation buffer `msg` (empty at the start of a read).
The Go `switch` cases are translated in order: end-of-source (with and
without pending bytes), the NUL byte, the stripped bare LF, the CR
(followed by the second read and its three outcomes), the length guard
with resynchronization via `junk`, and the default accumulation case. -/
def readMsgData : List Char → List Char → Except ReadError (List Char) × List Char
  | msg, [] =>
    if msg.length > 0 then (.error (.unexpected "end of file"), [])
    else (.error .eof, [])
  | msg, c :: rest =>
    if c = nulChar then (.error (.unexpected "null"), rest)
    else if c = '\n' then readMsgData msg rest
    else if c = '\r' then
      match rest with
      | [] => (.error (.unexpected "end of file"), [])
      | c2 :: rest2 =>
        if c2 ≠ '\n' then (.error (.unexpected "carrage return"), rest2)
        else if msg.length = 0 then readMsgData msg rest2
        else (.ok msg, rest2)
    else if msg.length ≥ MaxBytes - delimiter.length then
      let j := junk rest
      (.error (.tooLong ⟨msg.dropLast, j.1 + 1⟩), j.2)
    else readMsgData (msg ++ [c]) rest

/-! ### Helper lemmas -/

/-- Dropping trailing newlines leaves a list untouched when its last element
is not a newline. -/
theorem trimRightNl_of_getLast (s : List Char) (h : s.getLast? ≠ some '\n') :
    trimRightNl s = s := by
  unfold trimRightNl
  cases hr : s.reverse with
  | nil =>
    have : s = [] := by simpa using congrArg List.reverse hr
    simp [this]
  | cons a t =>
    have ha : a ≠ '\n' := by
      intro hcontra
      apply h
      have : s.reverse.head? = some a := by rw [hr]; rfl
      rw [List.head?_reverse] at this
      rw [this, hcontra]
    rw [List.dropWhile_cons_of_neg (by simpa using ha), ← hr, List.reverse_reverse]

theorem takeWhile_ne_append (d : Char) (xs ys : List Char) (h : d ∉ xs) :
    (xs ++ d :: ys).takeWhile (fun c => c ≠ d) = xs := by
  induction xs with
  | nil => simp [List.takeWhile_cons]
  | cons a t ih =>
    have ha : a ≠ d := fun hc => h (by simp [hc])
    have ht : d ∉ t := fun hc => h (by simp [hc])
    simp only [List.cons_append, List.takeWhile_cons]
    rw [if_pos (show decide (a ≠ d) = true by simpa using ha), ih ht]

theorem dropWhile_ne_append (d : Char) (xs ys : List Char) (h : d ∉ xs) :
    (xs ++ d :: ys).dropWhile (fun c => c ≠ d) = d :: ys := by
  induction xs with
  | nil => simp [List.dropWhile_cons]
  | cons a t ih =>
    have ha : a ≠ d := fun hc => h (by simp [hc])
    have ht : d ∉ t := fun hc => h (by simp [hc])
    simp only [List.cons_append, List.dropWhile_cons]
    rw [if_pos (show decide (a ≠ d) = true by simpa using ha), ih ht]

theorem takeWhile_ne_all (d : Char) (xs : List Char) (h : d ∉ xs) :
    xs.takeWhile (fun c => c ≠ d) = xs := by
  induction xs with
  | nil => simp
  | cons a t ih =>
    have ha : a ≠ d := fun hc => h (by simp [hc])
    have ht : d ∉ t := fun hc => h (by simp [hc])
    simp only [List.takeWhile_cons]
    rw [if_pos (show decide (a ≠ d) = true by simpa using ha), ih ht]

theorem dropWhile_ne_all (d : Char) (xs : List Char) (h : d ∉ xs) :
    xs.dropWhile (fun c => c ≠ d) = [] := by
  induction xs with
  | nil => simp
  | cons a t ih =>
    have ha : a ≠ d := fun hc => h (by simp [hc])
    have ht : d ∉ t := fun hc => h (by simp [hc])
    simp only [List.dropWhile_cons]
    rw [if_pos (show decide (a ≠ d) = true by simpa using ha), ih ht]

/-- `splitString` on a string not containing the delimiter: the whole string
is the head and the tail is empty. -/
theorem splitString_not_mem (s : List Char) (d : Char) (h : d ∉ s) :
    splitString s d = (s, []) := by
  unfold splitString
  rw [takeWhile_ne_all d s h, dropWhile_ne_all d s h]
  simp

/-- `splitString` at the first occurrence of the delimiter, with the
space-trimming of the tail applied when the delimiter is a space. -/
theorem splitString_append (xs ys : List Char) (d : Char) (h : d ∉ xs) :
    splitString (xs ++ d :: ys) d =
      (xs, if d = ' ' then ys.dropWhile (fun c => c = ' ') else ys) := by
  unfold splitString
  rw [takeWhile_ne_append d xs ys h, dropWhile_ne_append d xs ys h]
  by_cases hd : d = ' ' <;> simp [hd]

/-- The tail returned by `splitString` is strictly shorter than a non-empty
input. -/
theorem length_dropWhile_le_len (p : Char → Bool) (l : List Char) :
    (l.dropWhile p).length ≤ l.length := by
  induction l with
  | nil => simp
  | cons a t ih =>
    rw [List.dropWhile_cons]
    split
    · exact Nat.le_succ_of_le ih
    · exact Nat.le_refl _

theorem splitString_snd_length_lt (s : List Char) (d : Char) (h : s ≠ []) :
    (splitString s d).2.length < s.length := by
  have h1 : (s.dropWhile (fun c => c ≠ d)).length ≤ s.length :=
    length_dropWhile_le_len _ s
  have h2 : 1 ≤ s.length := by
    cases s with
    | nil => exact absurd rfl h
    | cons a t => simp
  have htl : ((s.dropWhile (fun c => c ≠ d)).drop 1).length < s.length := by
    rw [List.length_drop]; omega
  unfold splitString
  by_cases hd : d = ' '
  · simp only [hd, if_pos rfl]
    exact Nat.lt_of_le_of_lt (length_dropWhile_le_len _ _) (by simpa [hd] using htl)
  · simpa [hd] using htl

/-- A byte that triggers none of the special cases of the `readMsgData`
switch: not NUL, not LF, not CR. -/
def plainByte (c : Char) : Prop := c ≠ nulChar ∧ c ≠ '\n' ∧ c ≠ '\r'

instance : DecidablePred plainByte := fun c => by
  unfold plainByte; exact inferInstance

/-! ### Step lemmas for `readMsgData` (one unfolding per case of the Go
switch) -/

theorem readMsgData_nil (msg : List Char) :
    readMsgData msg [] =
      (if msg.length > 0 then Except.error (ReadError.unexpected "end of file")
       else Except.error ReadError.eof, []) := by
  rw [readMsgData.eq_def]
  by_cases h : msg.length > 0 <;> simp [h]

theorem readMsgData_nul (msg s : List Char) :
    readMsgData msg (nulChar :: s) = (.error (.unexpected "null"), s) := by
  rw [readMsgData.eq_def]
  simp

theorem readMsgData_lf (msg s : List Char) :
    readMsgData msg ('\n' :: s) = readMsgData msg s := by
  rw [readMsgData.eq_def]
  simp [show ¬ (('\n' : Char) = nulChar) by decide]

theorem readMsgData_cr_eof (msg : List Char) :
    readMsgData msg ['\r'] = (.error (.unexpected "end of file"), []) := by
  rw [readMsgData.eq_def]
  simp [show ¬ (('\r' : Char) = nulChar) by decide,
        show ¬ (('\r' : Char) = '\n') by decide]

theorem readMsgData_cr_nolf (msg s : List Char) (c : Char) (hc : c ≠ '\n') :
    readMsgData msg ('\r' :: c :: s) = (.error (.unexpected "carrage return"), s) := by
  rw [readMsgData.eq_def]
  simp [show ¬ (('\r' : Char) = nulChar) by decide,
        show ¬ (('\r' : Char) = '\n') by decide, hc]

theorem readMsgData_crlf (msg s : List Char) :
    readMsgData msg ('\r' :: '\n' :: s) =
      (if msg.length = 0 then readMsgData msg s else (.ok msg, s)) := by
  rw [readMsgData.eq_def]
  by_cases h : msg.length = 0 <;>
    simp [show ¬ (('\r' : Char) = nulChar) by decide,
          show ¬ (('\r' : Char) = '\n') by decide, h]

theorem readMsgData_overflow (msg s : List Char) (c : Char) (hc : plainByte c)
    (hlen : msg.length ≥ MaxBytes - delimiter.length) :
    readMsgData msg (c :: s) =
      (.error (.tooLong ⟨msg.dropLast, (junk s).1 + 1⟩), (junk s).2) := by
  obtain ⟨h1, h2, h3⟩ := hc
  rw [readMsgData.eq_def]
  simp [h1, h2, h3, hlen]

theorem readMsgData_plain (msg s : List Char) (c : Char) (hc : plainByte c)
    (hlen : msg.length < MaxBytes - delimiter.length) :
    readMsgData msg (c :: s) = readMsgData (msg ++ [c]) s := by
  obtain ⟨h1, h2, h3⟩ := hc
  rw [readMsgData.eq_def]
  simp [h1, h2, h3, Nat.not_le.mpr hlen]

/-! ### Claim theorems -/

/-- Claim C2: a stream of exactly 512 bytes, 510 filler bytes followed by CR
LF, yields one message of length 510; a 512-byte stream of filler ending in a
bare CR yields a `MsgTooLong` error only after resynchronizing (discarding up
to the end of the source, leaving nothing, or up to the next CR LF), so that
the next read on the same stream succeeds on the next well-formed message. -/
theorem C2_max_length_stream :
    (List.replicate 510 'a' ++ delimiter).length = MaxBytes ∧
    readMsgData [] (List.replicate 510 'a' ++ delimiter) =
      (.ok (List.replicate 510 'a'), []) ∧
    (List.replicate 510 'a').length = MaxBytes - delimiter.length ∧
    (List.replicate 511 'a' ++ ['\r']).length = MaxBytes ∧
    readMsgData [] (List.replicate 511 'a' ++ ['\r']) =
      (.error (.tooLong ⟨List.replicate 509 'a', 2⟩), []) ∧
    readMsgData [] (List.replicate 511 'a' ++ '\r' :: "\r\nnext\r\n".data) =
      (.error (.tooLong ⟨List.replicate 509 'a', 3⟩), "next\r\n".data) ∧
    readMsgData [] "next\r\n".data = (.ok "next".data, []) := by
  decide

/-- Claim C6: reading the byte stream `"a\r\nb\r\n\r\nc\r\n"` yields exactly
the messages `"a"`, `"b"`, `"c"` in order and then clean end-of-stream; the
empty frame between `"b"` and `"c"` is skipped silently. -/
theorem C6_empty_frame_skipped :
    readMsgData [] "a\r\nb\r\n\r\nc\r\n".data = (.ok ['a'], "b\r\n\r\nc\r\n".data) ∧
    readMsgData [] "b\r\n\r\nc\r\n".data = (.ok ['b'], "\r\nc\r\n".data) ∧
    readMsgData [] "\r\nc\r\n".data = (.ok ['c'], []) ∧
    readMsgData [] ([] : List Char) = (.error .eof, []) := by
  decide

/-- Claim C8: at end-of-stream, the framer reports clean end-of-stream when
zero bytes have been accumulated for the current message, and an unexpected
end-of-file error (discarding the partial text) when one or more bytes have
been accumulated. -/
theorem C8_eof_behavior (msg : List Char) :
    readMsgData msg [] =
      (if msg.length = 0 then Except.error ReadError.eof
       else Except.error (ReadError.unexpected "end of file"), []) := by
  rw [readMsgData_nil]
  by_cases h : msg.length = 0
  · rw [if_neg (by omega), if_pos h]
  · rw [if_pos (Nat.pos_of_ne_zero h), if_neg h]

/-- Claim C7: for any stream and any accumulated state, a NUL byte produces
an immediate "unexpected null" error, a CR not followed by LF produces an
immediate "unexpected carrage return" error (in both cases the current
message is not completed), and a bare LF is stripped: it is not appended to
the accumulated text and is neither a boundary nor an error. -/
theorem C7_invalid_bytes (msg s : List Char) :
    readMsgData msg (nulChar :: s) = (.error (.unexpected "null"), s) ∧
    (∀ c : Char, c ≠ '\n' →
      readMsgData msg ('\r' :: c :: s) = (.error (.unexpected "carrage return"), s)) ∧
    readMsgData msg ('\n' :: s) = readMsgData msg s := by
  exact ⟨readMsgData_nul msg s, fun c hc => readMsgData_cr_nolf msg s c hc,
    readMsgData_lf msg s⟩

/-- Claim C7 witness: the CR-not-followed-by-LF case at a concrete input. -/
theorem C7_invalid_bytes_witness :
    readMsgData ['h'] (nulChar :: ['x']) = (.error (.unexpected "null"), ['x']) ∧
    (('a' : Char) ≠ '\n') ∧
    readMsgData ['h'] ('\r' :: 'a' :: ['x']) =
      (.error (.unexpected "carrage return"), ['x']) ∧
    readMsgData ['h'] ('\n' :: ['x']) = readMsgData ['h'] ['x'] :=
  ⟨(C7_invalid_bytes ['h'] ['x']).1, by decide,
   (C7_invalid_bytes ['h'] ['x']).2.1 'a' (by decide),
   (C7_invalid_bytes ['h'] ['x']).2.2⟩

/-- Claim C10: `Parse` reads index 0 of its input unconditionally, so the
empty string is rejected (the out-of-bounds access is modelled as `none`);
on any non-empty input every access is in bounds and `Parse` returns
normally. -/
theorem C10_parse_requires_nonempty :
    Parse [] = none ∧
    ∀ (c : Char) (rest : List Char), (Parse (c :: rest)).isSome = true := by
  refine ⟨rfl, fun c rest => ?_⟩
  by_cases hc : c = ':' <;> simp [Parse, hc]

/-- Claim C5 counterexample: a message whose `Raw` field is non-empty, at
most 510 bytes long, and ends in a newline is NOT returned byte-for-byte:
the trailing newline is stripped. -/
theorem C5_counterexample :
    (['a', '\n'] : List Char) ≠ [] ∧
    (['a', '\n'] : List Char).length ≤ MaxBytes - delimiter.length ∧
    Message.RawString { Raw := ['a', '\n'] } = .ok ['a'] ∧
    (['a'] : List Char) ≠ ['a', '\n'] := by
  decide

/-- Claim C5 (amended): for a message whose `Raw` field is non-empty and at
most 510 bytes long, serialization returns the raw value with its trailing
newline characters stripped instead of rebuilding from fields; in particular
it returns the raw value unchanged whenever the raw value does not end in a
newline. -/
theorem C5_raw_passthrough (m : Message) (h1 : m.Raw ≠ [])
    (h2 : m.Raw.length ≤ MaxBytes - delimiter.length) :
    m.RawString = .ok (trimRightNl m.Raw) ∧
    (m.Raw.getLast? ≠ some '\n' → m.RawString = .ok m.Raw) := by
  have hc : rawCandidate m = m.Raw := by simp [rawCandidate, h1]
  have hmain : m.RawString = .ok (trimRightNl m.Raw) := by
    simp only [Message.RawString]
    rw [hc, if_neg (by omega)]
  refine ⟨hmain, fun h3 => ?_⟩
  rw [hmain, trimRightNl_of_getLast _ h3]

/-- Claim C5 witness: the passthrough at a concrete raw value without a
trailing newline. -/
theorem C5_raw_passthrough_witness :
    ((['a'] : List Char) ≠ [] ∧ (['a'] : List Char).length ≤ MaxBytes - delimiter.length ∧
      (['a'] : List Char).getLast? ≠ some '\n') ∧
    Message.RawString { Raw := ['a'] } = .ok ['a'] :=
  ⟨⟨by decide, by decide, by decide⟩,
   (C5_raw_passthrough { Raw := ['a'] } (by decide) (by decide)).2 (by decide)⟩

/-- Claim C4 counterexample: the length guard runs on the candidate BEFORE
trailing newlines are stripped, so a 511-byte candidate whose stripped form
would fit in 510 bytes still fails with `MsgTooLong`; the claim's order
(strip first, then guard) is falsified here. -/
theorem C4_counterexample :
    Message.RawString { Raw := List.replicate 510 'a' ++ ['\n'] } =
      .error ⟨List.replicate 510 'a' ++ ['\n'], 1⟩ ∧
    (trimRightNl (List.replicate 510 'a' ++ ['\n'])).length ≤
      MaxBytes - delimiter.length := by
  decide

/-- Claim C4 (amended): serialization enforces the length guard on the
candidate text before any trailing-newline stripping: it fails with
`MsgTooLong`, reporting the candidate text and the number of excess bytes,
if and only if the unstripped candidate exceeds 510 bytes; on success it
returns the whole candidate (with only trailing newlines stripped), never
silently truncating. -/
theorem C4_length_guard (m : Message) :
    ((rawCandidate m).length > MaxBytes - delimiter.length →
      m.RawString = .error ⟨rawCandidate m,
        (rawCandidate m).length - (MaxBytes - delimiter.length)⟩) ∧
    ((rawCandidate m).length ≤ MaxBytes - delimiter.length →
      m.RawString = .ok (trimRightNl (rawCandidate m))) := by
  constructor <;> intro h <;> simp only [Message.RawString]
  · rw [if_pos h]
  · rw [if_neg (by omega)]

/-- Claim C4 witness: the guard fires at a concrete 511-byte candidate. -/
theorem C4_length_guard_witness :
    (rawCandidate { Raw := List.replicate 511 'a' }).length >
      MaxBytes - delimiter.length ∧
    Message.RawString { Raw := List.replicate 511 'a' } =
      .error ⟨rawCandidate { Raw := List.replicate 511 'a' },
        (rawCandidate { Raw := List.replicate 511 'a' }).length -
          (MaxBytes - delimiter.length)⟩ :=
  ⟨by decide, (C4_length_guard { Raw := List.replicate 511 'a' }).1 (by decide)⟩

/-- Accumulating a run of plain bytes: as long as the buffer stays under the
length bound, reading `pre ++ post` from buffer `msg` is reading `post` from
buffer `msg ++ pre`. -/
theorem readMsgData_accum (pre : List Char) :
    ∀ (msg post : List Char), (∀ c ∈ pre, plainByte c) →
      msg.length + pre.length ≤ MaxBytes - delimiter.length →
      readMsgData msg (pre ++ post) = readMsgData (msg ++ pre) post := by
  induction pre with
  | nil => intro msg post _ _; simp
  | cons c t ih =>
    intro msg post hp hlen
    have hc : plainByte c := hp c (List.mem_cons_self c t)
    have hlt : msg.length < MaxBytes - delimiter.length := by
      simp only [List.length_cons] at hlen; omega
    have hlen2 : (msg ++ [c]).length + t.length ≤ MaxBytes - delimiter.length := by
      simp only [List.length_append, List.length_cons, List.length_singleton,
        List.length_nil] at hlen ⊢
      omega
    rw [List.cons_append, readMsgData_plain msg (t ++ post) c hc hlt,
        ih (msg ++ [c]) post (fun x hx => hp x (List.mem_cons_of_mem c hx)) hlen2,
        List.append_assoc, List.singleton_append]

/-- Claim C3 counterexample: with 510 filler bytes accumulated, the
`MsgTooLong` error does NOT carry all accumulated bytes: it carries only the
first 509 of them (the last accumulated byte is dropped by
`msg[:len(msg)-1]`). -/
theorem C3_counterexample :
    List.take 510 (List.replicate 510 'a' ++ 'b' :: "\r\r\n".data) =
      List.replicate 510 'a' ∧
    (readMsgData [] (List.replicate 510 'a' ++ 'b' :: "\r\r\n".data)).1 =
      .error (.tooLong ⟨List.replicate 509 'a', 3⟩) ∧
    (List.replicate 509 'a' : List Char) ≠ List.replicate 510 'a' := by
  decide

/-- Claim C3 (amended): when 510 plain bytes have accumulated without a
boundary and another plain byte arrives, the read returns a `MsgTooLong`
error whose text is all accumulated bytes except the last one and whose
count is one more than `junk`'s return value, with the stream positioned
after the resynchronization scan. -/
theorem C3_truncation_error (pre post : List Char) (t : Char)
    (hlen : pre.length = MaxBytes - delimiter.length)
    (hp : ∀ c ∈ pre, plainByte c) (ht : plainByte t) :
    readMsgData [] (pre ++ t :: post) =
      (.error (.tooLong ⟨pre.dropLast, (junk post).1 + 1⟩), (junk post).2) := by
  rw [readMsgData_accum pre [] (t :: post) hp (by simp [hlen]), List.nil_append]
  exact readMsgData_overflow pre post t ht (by omega)

/-- Claim C3 witness: the truncation error at a concrete oversized stream
followed by a well-formed message. -/
theorem C3_truncation_error_witness :
    ((List.replicate 510 'a').length = MaxBytes - delimiter.length ∧
     (∀ c ∈ List.replicate 510 'a', plainByte c) ∧ plainByte 'b') ∧
    readMsgData [] (List.replicate 510 'a' ++ 'b' :: "\r\r\nnext\r\n".data) =
      (.error (.tooLong ⟨(List.replicate 510 'a').dropLast,
         (junk "\r\r\nnext\r\n".data).1 + 1⟩),
       (junk "\r\r\nnext\r\n".data).2) :=
  ⟨⟨by decide, by decide, by decide⟩,
   C3_truncation_error (List.replicate 510 'a') "\r\r\nnext\r\n".data 'b'
     (by decide) (by decide) (by decide)⟩

/-- Any fuel at least the input length gives the same result: the loop of
`Parse` consumes at least one character per iteration. -/
theorem parseArgsF_fuel : ∀ (f1 f2 : Nat) (d : List Char),
    d.length ≤ f1 → d.length ≤ f2 → parseArgsF f1 d = parseArgsF f2 d := by
  intro f1
  induction f1 with
  | zero =>
    intro f2 d h1 _
    have hd : d = [] := List.length_eq_zero.mp (Nat.le_zero.mp h1)
    subst hd
    cases f2 <;> rfl
  | succ f ih =>
    intro f2 d h1 h2
    cases d with
    | nil => cases f2 <;> rfl
    | cons c rest =>
      cases f2 with
      | zero => simp only [List.length_cons] at h2; omega
      | succ f2b =>
        by_cases hc : c = ':'
        · simp [parseArgsF, hc]
        · have hlt : (splitString (c :: rest) ' ').2.length < (c :: rest).length :=
            splitString_snd_length_lt _ _ (by simp)
          have e1 : (splitString (c :: rest) ' ').2.length ≤ f := by
            simp only [List.length_cons] at h1 hlt; omega
          have e2 : (splitString (c :: rest) ' ').2.length ≤ f2b := by
            simp only [List.length_cons] at h2 hlt; omega
          simp only [parseArgsF, if_neg hc]
          rw [ih f2b _ e1 e2]

theorem parseArgs_colon (rest : List Char) : parseArgs (':' :: rest) = [rest] := by
  simp [parseArgs, parseArgsF, List.length_cons]

theorem parseArgs_cons (c : Char) (rest : List Char) (hc : c ≠ ':') :
    parseArgs (c :: rest) =
      (splitString (c :: rest) ' ').1 :: parseArgs (splitString (c :: rest) ' ').2 := by
  have hlt : (splitString (c :: rest) ' ').2.length < (c :: rest).length :=
    splitString_snd_length_lt _ _ (by simp)
  unfold parseArgs
  simp only [List.length_cons, parseArgsF, if_neg hc]
  congr 1
  exact parseArgsF_fuel rest.length (splitString (c :: rest) ' ').2.length _
    (by simp only [List.length_cons] at hlt; omega) (Nat.le_refl _)

/-- `splitString` with the space delimiter, written out. -/
theorem splitString_space_eq (s : List Char) :
    splitString s ' ' = (s.takeWhile (fun c => c ≠ ' '),
      ((s.dropWhile (fun c => c ≠ ' ')).drop 1).dropWhile (fun c => c = ' ')) := by
  simp [splitString]

/-- After dropping leading spaces the head is not a space. -/
theorem head?_dropWhile_space (l : List Char) :
    (l.dropWhile (fun c => c = ' ')).head? ≠ some ' ' := by
  induction l with
  | nil => simp
  | cons a t ih =>
    rw [List.dropWhile_cons]
    split
    · exact ih
    · rename_i hne
      simp only [List.head?_cons, ne_eq, Option.some.injEq]
      intro h
      exact hne (by simp [h])

/-- Claim C9: in the argument-extraction loop of `Parse`, a remainder
starting with the trailing marker yields the rest of the string (marker
removed, spaces included) as the final argument and extraction stops;
otherwise the next space-delimited token is taken, the token is non-empty
whenever the remainder starts with a non-space (runs of spaces collapse and
the new remainder never starts with a space), and an exhausted remainder
produces no further argument; concretely, parsing "JOIN #x ::trail" keeps
the second colon in the final argument ":trail". -/
theorem C9_argument_extraction :
    Parse "JOIN #x ::trail".data =
      some { Raw := "JOIN #x ::trail".data, Command := "JOIN".data,
             Arguments := ["#x".data, ":trail".data] } ∧
    (∀ rest : List Char, parseArgs (':' :: rest) = [rest]) ∧
    (∀ (c : Char) (rest : List Char), c ≠ ':' →
      parseArgs (c :: rest) =
        (splitString (c :: rest) ' ').1 :: parseArgs (splitString (c :: rest) ' ').2) ∧
    (∀ (c : Char) (rest : List Char), c ≠ ':' → c ≠ ' ' →
      (splitString (c :: rest) ' ').1 ≠ [] ∧
      (splitString (c :: rest) ' ').2.head? ≠ some ' ') ∧
    parseArgs [] = [] := by
  refine ⟨by decide, parseArgs_colon, parseArgs_cons, fun c rest hc hs => ⟨?_, ?_⟩, rfl⟩
  · rw [splitString_space_eq]
    rw [List.takeWhile_cons_of_pos (by simpa using hs)]
    simp
  · rw [splitString_space_eq]
    exact head?_dropWhile_space _

/-- Claim C9 witness: the non-colon branch at a concrete remainder. -/
theorem C9_argument_extraction_witness :
    (('x' : Char) ≠ ':' ∧ ('x' : Char) ≠ ' ') ∧
    parseArgs ('x' :: " y".data) =
      (splitString ('x' :: " y".data) ' ').1 ::
        parseArgs (splitString ('x' :: " y".data) ' ').2 ∧
    (splitString ('x' :: " y".data) ' ').1 ≠ [] ∧
    (splitString ('x' :: " y".data) ' ').2.head? ≠ some ' ' :=
  ⟨⟨by decide, by decide⟩,
   C9_argument_extraction.2.2.1 'x' " y".data (by decide),
   C9_argument_extraction.2.2.2.1 'x' " y".data (by decide) (by decide)⟩

/-! ### Round-trip apparatus for C1 -/

/-- The remainder left for the argument loop after the command token is
split off: the serialized argument text with its leading space trimmed. -/
def argsData (args : List (List Char)) : List Char :=
  (argsString args).dropWhile (fun c => c = ' ')

/-- Well-formedness of the argument list for a faithful round-trip: every
non-final argument is non-empty, contains no space and does not start with
the trailing marker. -/
def goodArgs (args : List (List Char)) : Prop :=
  ∀ a ∈ args.dropLast, a ≠ [] ∧ ' ' ∉ a ∧ a.head? ≠ some ':'

instance : DecidablePred goodArgs := fun args => by
  unfold goodArgs; exact inferInstance

/-- The field conditions under which serialization followed by parsing
reproduces the structured fields. -/
def wellFormedFields (m : Message) : Prop :=
  m.Raw = [] ∧
  ((m.User = [] ∧ m.Host = []) ∨ (m.Origin ≠ [] ∧ m.User ≠ [] ∧ m.Host ≠ [])) ∧
  ' ' ∉ m.Origin ∧ '!' ∉ m.Origin ∧
  ' ' ∉ m.User ∧ '@' ∉ m.User ∧
  ' ' ∉ m.Host ∧
  m.Command ≠ [] ∧ ' ' ∉ m.Command ∧ m.Command.head? ≠ some ':' ∧
  goodArgs m.Arguments ∧
  (∀ a ∈ m.Arguments, m.Arguments.getLast? = some a → a.getLast? ≠ some '\n') ∧
  (m.Arguments = [] → m.Command.getLast? ≠ some '\n')

instance : DecidablePred wellFormedFields := fun m => by
  unfold wellFormedFields; exact inferInstance

theorem argsString_single (a : List Char) : argsString [a] = ' ' :: ':' :: a := rfl

theorem argsString_cons2 (a b : List Char) (as : List (List Char)) :
    argsString (a :: b :: as) = ' ' :: (a ++ argsString (b :: as)) := rfl

theorem argsString_eq_cons (a : List Char) (as : List (List Char)) :
    ∃ t, argsString (a :: as) = ' ' :: t := by
  cases as with
  | nil => exact ⟨':' :: a, rfl⟩
  | cons b bs => exact ⟨a ++ argsString (b :: bs), rfl⟩

theorem argsString_ne_nil (args : List (List Char)) (h : args ≠ []) :
    argsString args ≠ [] := by
  cases args with
  | nil => exact absurd rfl h
  | cons a as =>
    obtain ⟨t, ht⟩ := argsString_eq_cons a as
    simp [ht]

/-- Dropping leading spaces from a list whose head is not a space is the
identity. -/
theorem dropWhile_space_of_head (l : List Char) (h : l.head? ≠ some ' ') :
    l.dropWhile (fun c => c = ' ') = l := by
  cases l with
  | nil => rfl
  | cons a t =>
    have ha : a ≠ ' ' := by simpa using h
    rw [List.dropWhile_cons_of_neg (by simpa using ha)]

/-- Splitting the serialized command-and-arguments region on the first
space recovers the command and leaves exactly the argument loop's input. -/
theorem splitString_cmd (cmd : List Char) (args : List (List Char))
    (hsp : ' ' ∉ cmd) :
    splitString (cmd ++ argsString args) ' ' = (cmd, argsData args) := by
  cases args with
  | nil =>
    rw [show argsString [] = [] from rfl, List.append_nil,
        splitString_not_mem cmd ' ' hsp]
    rfl
  | cons a as =>
    obtain ⟨t, ht⟩ := argsString_eq_cons a as
    rw [ht, splitString_append cmd t ' ' hsp, if_pos rfl]
    have : argsData (a :: as) = t.dropWhile (fun c => c = ' ') := by
      rw [argsData, ht, List.dropWhile_cons_of_pos (by decide)]
    rw [this]

/-- The argument loop inverts argument serialization for well-formed
argument lists. -/
theorem parseArgs_argsData (args : List (List Char)) (h : goodArgs args) :
    parseArgs (argsData args) = args := by
  induction args with
  | nil => rfl
  | cons a as ih =>
    cases as with
    | nil =>
      have h1 : argsData [a] = ':' :: a := by
        rw [argsData, argsString_single, List.dropWhile_cons_of_pos (by decide),
            List.dropWhile_cons_of_neg (by decide)]
      rw [h1, parseArgs_colon]
    | cons b bs =>
      obtain ⟨hne, hsp, hcol⟩ := h a (by
        rw [show (a :: b :: bs).dropLast = a :: (b :: bs).dropLast from rfl]
        exact List.mem_cons_self a _)
      have hgood : goodArgs (b :: bs) := by
        intro x hx
        exact h x (by
          rw [show (a :: b :: bs).dropLast = a :: (b :: bs).dropLast from rfl]
          exact List.mem_cons_of_mem a hx)
      obtain ⟨c, a2, rfl⟩ : ∃ c a2, a = c :: a2 := by
        cases a with
        | nil => exact absurd rfl hne
        | cons c a2 => exact ⟨c, a2, rfl⟩
      have hc_col : c ≠ ':' := by simpa using hcol
      have hc_sp : c ≠ ' ' := fun hq => hsp (by simp [hq])
      obtain ⟨t, ht⟩ := argsString_eq_cons b bs
      have hAD : argsData ((c :: a2) :: b :: bs) = (c :: a2) ++ argsString (b :: bs) := by
        rw [argsData, argsString_cons2, List.dropWhile_cons_of_pos (by decide)]
        exact dropWhile_space_of_head _ (by simp [hc_sp])
      have hsplit : splitString ((c :: a2) ++ argsString (b :: bs)) ' ' =
          (c :: a2, argsData (b :: bs)) := by
        rw [ht, splitString_append (c :: a2) t ' ' hsp, if_pos rfl]
        have : argsData (b :: bs) = t.dropWhile (fun c => c = ' ') := by
          rw [argsData, ht, List.dropWhile_cons_of_pos (by decide)]
        rw [this]
      rw [hAD, List.cons_append, parseArgs_cons c (a2 ++ argsString (b :: bs)) hc_col,
          ← List.cons_append, hsplit]
      exact congrArg _ (ih hgood)

theorem mem_of_getLast?_eq {α : Type} (l : List α) (a : α)
    (h : l.getLast? = some a) : a ∈ l := by
  obtain ⟨hn, heq⟩ := List.mem_getLast?_eq_getLast (Option.mem_def.mpr h)
  rw [heq]
  exact List.getLast_mem hn

/-- The serialized argument region never ends in a newline when the final
argument does not. -/
theorem argsString_getLast_ne_nl (args : List (List Char))
    (hnl : ∀ a, args.getLast? = some a → a.getLast? ≠ some '\n') :
    args ≠ [] → (argsString args).getLast? ≠ some '\n' := by
  induction args with
  | nil => intro h; exact absurd rfl h
  | cons a as ih =>
    intro _
    cases as with
    | nil =>
      have ha : a.getLast? ≠ some '\n' := hnl a rfl
      cases a with
      | nil => decide
      | cons x xs =>
        rw [argsString_single,
            show (' ' :: ':' :: x :: xs) = [' ', ':'] ++ (x :: xs) from rfl,
            List.getLast?_append_of_ne_nil _ (by simp)]
        exact ha
    | cons b bs =>
      rw [argsString_cons2,
          show (' ' :: (a ++ argsString (b :: bs))) =
            (' ' :: a) ++ argsString (b :: bs) from rfl,
          List.getLast?_append_of_ne_nil _ (argsString_ne_nil _ (by simp))]
      refine ih ?_ (by simp)
      intro x hx
      refine hnl x ?_
      rw [List.getLast?_cons_cons]
      exact hx

/-- One unfolding of `Parse` when the input starts with the prefix
marker. -/
theorem Parse_cons_colon (rest : List Char) :
    Parse (':' :: rest) =
      some { Raw := ':' :: rest,
             Origin := (splitString (splitString rest ' ').1 '!').1,
             User := (splitString (splitString (splitString rest ' ').1 '!').2 '@').1,
             Host := (splitString (splitString (splitString rest ' ').1 '!').2 '@').2,
             Command := (splitString (splitString rest ' ').2 ' ').1,
             Arguments := parseArgs (splitString (splitString rest ' ').2 ' ').2 } := rfl

/-- One unfolding of `Parse` when the input does not start with the prefix
marker. -/
theorem Parse_cons_other (c : Char) (rest : List Char) (hc : c ≠ ':') :
    Parse (c :: rest) =
      some { Raw := c :: rest, Command := (splitString (c :: rest) ' ').1,
             Arguments := parseArgs (splitString (c :: rest) ' ').2 } := by
  simp [Parse, hc]

/-- `Parse` on serialized text with no prefix part. -/
theorem Parse_noPrefix (cmd : List Char) (args : List (List Char))
    (hc : cmd ≠ []) (hsp : ' ' ∉ cmd) (hcol : cmd.head? ≠ some ':')
    (hargs : goodArgs args) :
    Parse (cmd ++ argsString args) =
      some { Raw := cmd ++ argsString args, Command := cmd, Arguments := args } := by
  obtain ⟨c, cs, rfl⟩ : ∃ c cs, cmd = c :: cs := by
    cases cmd with
    | nil => exact absurd rfl hc
    | cons c cs => exact ⟨c, cs, rfl⟩
  have hc2 : c ≠ ':' := by simpa using hcol
  have hsplit : splitString ((c :: cs) ++ argsString args) ' ' = (c :: cs, argsData args) :=
    splitString_cmd (c :: cs) args hsp
  rw [List.cons_append, Parse_cons_other c (cs ++ argsString args) hc2,
      ← List.cons_append, hsplit, parseArgs_argsData args hargs]

/-- `Parse` on serialized text with a prefix part: the prefix body is split
off at the first space, then split on the bang and the at sign. -/
theorem Parse_prefix (body rest2 : List Char) (hsp : ' ' ∉ body)
    (hhd : rest2.head? ≠ some ' ') :
    Parse (':' :: (body ++ ' ' :: rest2)) =
      some { Raw := ':' :: (body ++ ' ' :: rest2),
             Origin := (splitString body '!').1,
             User := (splitString (splitString body '!').2 '@').1,
             Host := (splitString (splitString body '!').2 '@').2,
             Command := (splitString rest2 ' ').1,
             Arguments := parseArgs (splitString rest2 ' ').2 } := by
  have hp : splitString (body ++ ' ' :: rest2) ' ' = (body, rest2) := by
    rw [splitString_append body rest2 ' ' hsp, if_pos rfl,
        dropWhile_space_of_head rest2 hhd]
  rw [Parse_cons_colon, hp]

/-- Claim C1 counterexample: the round-trip fails as stated for a message
satisfying all the claim's conditions (raw empty, user and host both absent
with a non-empty origin, no non-final argument containing a space) whose
first argument is the empty string: parsing the serialized text collapses
the run of spaces and loses the empty argument. -/
theorem C1_counterexample :
    Message.RawString { Origin := ['n'], Command := "JOIN".data, Arguments := [[], ['b']] } = .ok ":n JOIN  :b".data ∧
    (∀ a ∈ ([[], ['b']] : List (List Char)).dropLast, ' ' ∉ a) ∧
    Parse ":n JOIN  :b".data = some { Raw := ":n JOIN  :b".data, Origin := ['n'], Command := "JOIN".data, Arguments := [['b']] } ∧
    ([['b']] : List (List Char)) ≠ [[], ['b']] := by
  decide

/-- Claim C1 (amended): for every Message whose raw field is empty, whose
user and host are both present or both absent alongside a non-empty origin,
whose origin contains no space and no bang, whose user contains no space
and no at sign, whose host contains no space, whose command is non-empty,
contains no space and does not start with the trailing marker, whose
non-final arguments are non-empty, contain no space and do not start with
the trailing marker, whose final argument does not end in a newline (the
command, when there are no arguments), and whose serialization succeeds,
parsing the serialized text yields the same origin, user, host, command and
arguments. -/
theorem C1_roundtrip (m : Message) (h : wellFormedFields m) (w : List Char)
    (hser : m.RawString = Except.ok w) :
    ∃ m2 : Message, Parse w = some m2 ∧ m2.Origin = m.Origin ∧ m2.User = m.User ∧
      m2.Host = m.Host ∧ m2.Command = m.Command ∧ m2.Arguments = m.Arguments := by
  obtain ⟨hraw, hvalid, hgo_sp, hgo_bang, hus_sp, hus_at, hho_sp, hcmd_ne, hcmd_sp,
    hcmd_col, hargs, hlastnl, hcmdnl⟩ := h
  have hcand : rawCandidate m =
      (if m.Origin ≠ [] then
        ':' :: m.Origin ++
          (if m.User ≠ [] then '!' :: m.User ++ '@' :: m.Host else []) ++ [' ']
       else []) ++ m.Command ++ argsString m.Arguments := by
    simp [rawCandidate, hraw]
  have hnlraw : (rawCandidate m).getLast? ≠ some '\n' := by
    rw [hcand]
    rcases hA : m.Arguments with _ | ⟨a0, as0⟩
    · rw [show argsString ([] : List (List Char)) = [] from rfl, List.append_nil,
          List.getLast?_append_of_ne_nil _ hcmd_ne]
      exact hcmdnl hA
    · rw [List.getLast?_append_of_ne_nil _ (argsString_ne_nil (a0 :: as0) (by simp))]
      refine argsString_getLast_ne_nl _ ?_ (by simp)
      intro x hx
      refine hlastnl x ?_ ?_
      · rw [hA]
        exact mem_of_getLast?_eq _ _ hx
      · rw [hA]
        exact hx
  have hguard : ¬ ((rawCandidate m).length > MaxBytes - delimiter.length) := by
    intro hgt
    simp only [Message.RawString] at hser
    rw [if_pos hgt] at hser
    exact Except.noConfusion hser
  have hw : w = rawCandidate m := by
    simp only [Message.RawString] at hser
    rw [if_neg hguard] at hser
    injection hser with h3
    rw [← h3, trimRightNl_of_getLast _ hnlraw]
  subst hw
  by_cases ho : m.Origin = []
  · have hu : m.User = [] := by
      rcases hvalid with ⟨h1, _⟩ | ⟨h1, _, _⟩
      · exact h1
      · exact absurd ho h1
    have hh : m.Host = [] := by
      rcases hvalid with ⟨_, h1⟩ | ⟨h1, _, _⟩
      · exact h1
      · exact absurd ho h1
    have hcand2 : rawCandidate m = m.Command ++ argsString m.Arguments := by
      rw [hcand, if_neg (by simp [ho]), List.nil_append]
    rw [hcand2, Parse_noPrefix m.Command m.Arguments hcmd_ne hcmd_sp hcmd_col hargs]
    exact ⟨_, rfl, ho.symm, hu.symm, hh.symm, rfl, rfl⟩
  · obtain ⟨c0, cs0, hcmd_eq⟩ : ∃ c0 cs0, m.Command = c0 :: cs0 := by
      cases hq : m.Command with
      | nil => exact absurd hq hcmd_ne
      | cons c0 cs0 => exact ⟨c0, cs0, rfl⟩
    have hc0 : c0 ≠ ' ' := by
      intro he
      exact hcmd_sp (by rw [hcmd_eq, he]; exact List.mem_cons_self _ _)
    have hhd : (m.Command ++ argsString m.Arguments).head? ≠ some ' ' := by
      rw [hcmd_eq, List.cons_append, List.head?_cons]
      simpa using hc0
    by_cases hu : m.User = []
    · have hh : m.Host = [] := by
        rcases hvalid with ⟨_, h1⟩ | ⟨_, h1, _⟩
        · exact h1
        · exact absurd hu h1
      have hcand2 : rawCandidate m =
          ':' :: (m.Origin ++ ' ' :: (m.Command ++ argsString m.Arguments)) := by
        rw [hcand, if_pos (by simpa using ho), if_neg (by simp [hu])]
        simp [List.append_assoc]
      have hbody_sp : ' ' ∉ m.Origin := hgo_sp
      have hq : splitString m.Origin '!' = (m.Origin, []) :=
        splitString_not_mem _ _ hgo_bang
      have hr : splitString ([] : List Char) '@' = ([], []) := by decide
      rw [hcand2, Parse_prefix m.Origin (m.Command ++ argsString m.Arguments)
            hbody_sp hhd, splitString_cmd m.Command m.Arguments hcmd_sp,
          parseArgs_argsData m.Arguments hargs]
      refine ⟨_, rfl, ?_, ?_, ?_, rfl, rfl⟩ <;> simp [hq, hr, hu, hh]
    · have hh : m.Host ≠ [] := by
        rcases hvalid with ⟨h1, _⟩ | ⟨_, _, h1⟩
        · exact absurd h1 hu
        · exact h1
      have hbody_sp : ' ' ∉ m.Origin ++ '!' :: (m.User ++ '@' :: m.Host) := by
        intro hmem
        simp only [List.mem_append, List.mem_cons] at hmem
        rcases hmem with h1 | h1 | h1 | h1 | h1
        · exact hgo_sp h1
        · exact absurd h1 (by decide)
        · exact hus_sp h1
        · exact absurd h1 (by decide)
        · exact hho_sp h1
      have hcand2 : rawCandidate m =
          ':' :: ((m.Origin ++ '!' :: (m.User ++ '@' :: m.Host)) ++
            ' ' :: (m.Command ++ argsString m.Arguments)) := by
        rw [hcand, if_pos (by simpa using ho), if_pos (by simpa using hu)]
        simp [List.append_assoc]
      have hqs : splitString (m.Origin ++ '!' :: (m.User ++ '@' :: m.Host)) '!' =
          (m.Origin, m.User ++ '@' :: m.Host) := by
        rw [splitString_append m.Origin _ '!' hgo_bang, if_neg (by decide)]
      have hrs : splitString (m.User ++ '@' :: m.Host) '@' = (m.User, m.Host) := by
        rw [splitString_append m.User m.Host '@' hus_at, if_neg (by decide)]
      rw [hcand2, Parse_prefix (m.Origin ++ '!' :: (m.User ++ '@' :: m.Host))
            (m.Command ++ argsString m.Arguments) hbody_sp hhd,
          splitString_cmd m.Command m.Arguments hcmd_sp,
          parseArgs_argsData m.Arguments hargs, hqs, hrs]
      exact ⟨_, rfl, rfl, rfl, rfl, rfl, rfl⟩

/-- Claim C1 witness: the amended round-trip at a concrete message with a
full prefix and a trailing argument containing a space. -/
theorem C1_roundtrip_witness :
    (wellFormedFields { Origin := "nick".data, User := "u".data, Host := "h".data, Command := "PRIVMSG".data, Arguments := ["#c".data, "hello world".data] } ∧
     Message.RawString { Origin := "nick".data, User := "u".data, Host := "h".data, Command := "PRIVMSG".data, Arguments := ["#c".data, "hello world".data] } = Except.ok ":nick!u@h PRIVMSG #c :hello world".data) ∧
    ∃ m2 : Message, Parse ":nick!u@h PRIVMSG #c :hello world".data = some m2 ∧
      m2.Origin = "nick".data ∧ m2.User = "u".data ∧ m2.Host = "h".data ∧
      m2.Command = "PRIVMSG".data ∧
      m2.Arguments = ["#c".data, "hello world".data] :=
  ⟨⟨by decide, by decide⟩,
   C1_roundtrip { Origin := "nick".data, User := "u".data, Host := "h".data, Command := "PRIVMSG".data, Arguments := ["#c".data, "hello world".data] }
     (by decide) ":nick!u@h PRIVMSG #c :hello world".data (by decide)⟩

end Irc
